import Mathlib

/-!
Shallow embedding of source/fe/fe_raviart_thomas_nodal.cc, the nodal
Raviart-Thomas finite element (FE_RaviartThomasNodal and its helper class
PolynomialsRaviartThomasNodal) of the deal.II fork under verification.

Conventions used throughout:
* A constructor argument degree d is a natural number; the FiniteElementData
  degree stored in the element (this->degree in the C++ code) is d + 1.
* Unsigned C++ integers are modelled as Nat; table entries that can be
  negative (index deltas) are modelled as Int, matching the int-valued
  adjustment table.
* Fallible code paths (AssertThrow / Assert followed by an exception) are
  modelled with Except.
-/

namespace RTNodal

/-- Exceptions thrown by the element code paths modelled here. -/
inductive FEExc where
  | interpNotImplemented
  | excNotImplemented
  | impossibleInDim
  deriving DecidableEq, Repr

/-- Loop from get_rt_dpo_vector: dofs_per_face starts at 1 and is multiplied
by (degree + 1) once for every d with 1 <= d < dim. -/
def rt_dofs_per_face (dim degree : ℕ) : ℕ :=
  (List.range (dim - 1)).foldl (fun a _ => a * (degree + 1)) 1

/-- PolynomialsRaviartThomasNodal::n_polynomials:
dim * (degree + 2) * Utilities::pow(degree + 1, dim - 1). -/
def n_polynomials (dim degree : ℕ) : ℕ :=
  dim * (degree + 2) * (degree + 1) ^ (dim - 1)

/-- get_rt_dpo_vector: a vector of dim + 1 entries (vertex, edge, ...,
face, cell); entries 0 and 1 are set to zero, entry dim - 1 to
dofs_per_face and entry dim to dim * degree * dofs_per_face.  The
C++ std::vector is zero-initialized, so only the two overwrites matter. -/
def get_rt_dpo_vector (dim degree : ℕ) : List ℕ :=
  let dofs_per_face := rt_dofs_per_face dim degree
  (((List.replicate (dim + 1) 0).set (dim - 1) dofs_per_face).set dim
    (dim * degree * dofs_per_face))

/-- FiniteElementData degree of the element: the constructor passes
degree + 1 to FiniteElementData, so this->degree = ctor degree + 1. -/
def fe_degree (d : ℕ) : ℕ := d + 1

/-- Number of dofs per (codimension-one) face of the element, read off the
dofs-per-object vector; vertices and edges carry no dofs, so the face dof
count is the codimension-one entry of the dpo vector. -/
def n_dofs_per_face (dim d : ℕ) : ℕ :=
  (get_rt_dpo_vector dim d).getD (dim - 1) 0

/-- Number of dofs per quad of the 3-D element (this->n_dofs_per_quad,
used by hp_quad_dof_identities, which only reaches this value when
dim = 3). -/
def n_dofs_per_quad (d : ℕ) : ℕ :=
  (get_rt_dpo_vector 3 d).getD 2 0

/-!
Face orientation tables (3-D), from
FE_RaviartThomasNodal::initialize_quad_dof_index_permutation_and_sign_change.
The constructor loop runs for n = this->degree samples per axis and every
local index loc below n_dofs_per_quad = n * n; column numbering follows the
source comments, column = 4 * orientation + 2 * flip + rotation.
-/

/-- Index-delta table entry written by the constructor for quad dof index
local and orientation case col.  The C++ writes, with i = local % n and
j = local / n, the permuted index minus local into an int table; column 4
(orientation true, no flip, no rotation) is written as the literal 0. -/
def adjust_quad_dof_index_for_face_orientation_table (n loc col : ℕ) : ℤ :=
  let i := loc % n
  let j := loc / n
  if col = 0 then ((j + i * n : ℕ) : ℤ) - (loc : ℤ)
  else if col = 1 then ((i + (n - 1 - j) * n : ℕ) : ℤ) - (loc : ℤ)
  else if col = 2 then (((n - 1 - j) + (n - 1 - i) * n : ℕ) : ℤ) - (loc : ℤ)
  else if col = 3 then (((n - 1 - i) + j * n : ℕ) : ℤ) - (loc : ℤ)
  else if col = 4 then 0
  else if col = 5 then ((j + (n - 1 - i) * n : ℕ) : ℤ) - (loc : ℤ)
  else if col = 6 then (((n - 1 - i) + (n - 1 - j) * n : ℕ) : ℤ) - (loc : ℤ)
  else if col = 7 then (((n - 1 - j) + i * n : ℕ) : ℤ) - (loc : ℤ)
  else 0

/-- Modelled from the spec: the quad dof sign table is allocated and
default-filled by the FiniteElement base class, which is not part of src/;
the spec describes FaceOrientationCase as mapping a local face-interior
index to a permuted index together with a sign in the set containing +1
and -1, and states that every case of this table carries sign +1, so the
default entry is modelled as the sign +1. -/
def quad_dof_sign_default : ℤ := 1

/-- Sign table entry after the constructor ran: the loop in src/ overwrites
columns 0 to 3 (the orientation = false cases) with the value 1; the
remaining four columns keep the base-class default. -/
def adjust_quad_dof_sign_for_face_orientation_table (n loc col : ℕ) : ℤ :=
  if col < 4 then 1 else quad_dof_sign_default

/-!
Model of the finite element families an FE_RaviartThomasNodal instance can
be compared against.  The C++ discriminates with dynamic_cast (and, for the
interpolation matrices, a get_name prefix check) between another
FE_RaviartThomasNodal, the no-dof placeholder FE_Nothing, and anything
else.
-/

/-- The possible runtime families of the other element in a comparison:
another nodal Raviart-Thomas element (with its constructor degree), the
no-dof placeholder FE_Nothing (with its dominating flag), or an element of
some unrecognized family. -/
inductive SourceFE where
  | rtNodal (ctorDegree : ℕ)
  | feNothing (dominating : Bool)
  | otherFamily
  deriving DecidableEq, Repr

/-- Whether the dynamic_cast of the source element to
FE_RaviartThomasNodal succeeds. -/
def is_rt_nodal : SourceFE → Bool
  | .rtNodal _ => true
  | _ => false

/-- Per-face dof count of the source element: for a nodal Raviart-Thomas
element it is its codimension-one dpo entry; FE_Nothing has no dofs at
all.  An unrecognized family is rejected before its dof count is ever
consulted, so it is mapped to 0 here. -/
def source_n_dofs_per_face (dim : ℕ) : SourceFE → ℕ
  | .rtNodal q => n_dofs_per_face dim q
  | .feNothing _ => 0
  | .otherFamily => 0

/-- Guard sequence of FE_RaviartThomasNodal::get_face_interpolation_matrix:
first the AssertThrow that the source element is a nodal Raviart-Thomas
element (get_name prefix or dynamic_cast), with
ExcInterpolationNotImplemented, then the Assert that this->n_dofs_per_face
is at most the source n_dofs_per_face, with the same exception.  When both
guards pass the matrix is filled from shape values without any further
failure path in src/. -/
def get_face_interpolation_matrix_check (dim p : ℕ) (src : SourceFE) :
    Except FEExc Unit :=
  if ¬ (is_rt_nodal src = true) then .error .interpNotImplemented
  else if ¬ (n_dofs_per_face dim p ≤ source_n_dofs_per_face dim src) then
    .error .interpNotImplemented
  else .ok ()

/-- Guard sequence of
FE_RaviartThomasNodal::get_subface_interpolation_matrix; the guards are
the same two as for the face version (the subface index only enters the
projection of the support points, after both guards passed). -/
def get_subface_interpolation_matrix_check (dim p : ℕ) (src : SourceFE)
    (_subface : ℕ) : Except FEExc Unit :=
  if ¬ (is_rt_nodal src = true) then .error .interpNotImplemented
  else if ¬ (n_dofs_per_face dim p ≤ source_n_dofs_per_face dim src) then
    .error .interpNotImplemented
  else .ok ()

/-- FE_RaviartThomasNodal::hp_line_dof_identities.  The degrees p and q in
the source are this->degree - 1 and fe_q_other->degree - 1, hence exactly
the two constructor degrees. -/
def hp_line_dof_identities (dim p : ℕ) (src : SourceFE) :
    Except FEExc (List (ℕ × ℕ)) :=
  match src with
  | .rtNodal qc =>
    if dim ≠ 2 then .ok []
    else
      let pp := fe_degree p - 1
      let qq := fe_degree qc - 1
      if pp = qq then .ok ((List.range (pp + 1)).map fun i => (i, i))
      else if pp % 2 = 0 ∧ qq % 2 = 0 then .ok [(pp / 2, qq / 2)]
      else .ok []
  | .feNothing _ => .ok []
  | .otherFamily => .error .excNotImplemented

/-- FE_RaviartThomasNodal::hp_quad_dof_identities.  The counts p and q in
the source are this->n_dofs_per_quad(face_no) and
fe_q_other->n_dofs_per_quad(0); they are only computed after the dim = 3
check, so the 3-D quad dof count applies. -/
def hp_quad_dof_identities (dim p : ℕ) (src : SourceFE) :
    Except FEExc (List (ℕ × ℕ)) :=
  match src with
  | .rtNodal qc =>
    if dim ≠ 3 then .ok []
    else
      let pp := n_dofs_per_quad p
      let qq := n_dofs_per_quad qc
      if pp = qq then .ok ((List.range pp).map fun i => (i, i))
      else if pp % 2 ≠ 0 ∧ qq % 2 ≠ 0 then .ok [(pp / 2, qq / 2)]
      else .ok []
  | .feNothing _ => .ok []
  | .otherFamily => .error .excNotImplemented

/-- Domination results (FiniteElementDomination::Domination). -/
inductive Domination where
  | this_element_dominates
  | other_element_dominates
  | either_element_can_dominate
  | no_requirements
  | neither_element_dominates
  deriving DecidableEq, Repr

/-- FE_RaviartThomasNodal::compare_for_domination: codim is asserted to be
at most dim; against another nodal Raviart-Thomas element this->degree
(the FiniteElementData degree, ctor degree + 1) is compared; against
FE_Nothing the dominating flag decides; any other family hits
Assert(false, ExcNotImplemented). -/
def compare_for_domination (dim p : ℕ) (src : SourceFE) (codim : ℕ) :
    Except FEExc Domination :=
  if ¬ (codim ≤ dim) then .error .impossibleInDim
  else
    match src with
    | .rtNodal q =>
      if fe_degree p < fe_degree q then .ok .this_element_dominates
      else if fe_degree p = fe_degree q then .ok .either_element_can_dominate
      else .ok .other_element_dominates
    | .feNothing dominating =>
      if dominating then .ok .other_element_dominates
      else .ok .no_requirements
    | .otherFamily => .error .excNotImplemented

/-!
FE_RaviartThomasNodal::convert_generalized_support_point_values_to_dof_values.
The body is a straight-line sequence of scalar assignments
nodal_values[pos] := support_point_values[pos](comp); we model it as the
list of (position, value) writes in program order.  The support point
values are abstracted as a function spv from point index and component to
a rational value, and GeometryInfo::unit_normal_direction (an external
constant table) is abstracted as a function und from face number to
component.  All 2 * dim faces have the same dof count, so the running
face offset fbase equals f * n_dofs_per_face. -/
def convert_gspv_writes (dim d : ℕ) (und : ℕ → ℕ) (spv : ℕ → ℕ → ℚ) :
    List (ℕ × ℚ) :=
  let dpF := n_dofs_per_face dim d
  let faces := (List.range (2 * dim)).flatMap fun f =>
    (List.range dpF).map fun i => (f * dpF + i, spv (f * dpF + i) (und f))
  let fbase := 2 * dim * dpF
  let istep := (n_polynomials dim d - fbase) / dim
  let chunks := (List.range dim).flatMap fun c =>
    (List.range istep).map fun i =>
      (fbase + c * istep + i, spv (fbase + c * istep + i) c)
  faces ++ chunks

/-!
Renumbering tables.  The constructor of PolynomialsRaviartThomasNodal sets
lexicographic_to_hierarchic from
internal::get_lexicographic_numbering_rt_nodal<dim>(degree + 1) and
hierarchic_to_lexicographic from
Utilities::invert_permutation(lexicographic_to_hierarchic).  Both callees
live outside src/, so they are modelled from the spec below.
-/

/-- Modelled from the spec: the lexicographic-to-hierarchic map for dim = 2
(internal::get_lexicographic_numbering_rt_nodal is not in src/).  Per the
spec, the permutation places all face dofs before all interior dofs,
grouped per face with (d+1)^(dim-1) dofs per face and dim*d*(d+1)^(dim-1)
interior dofs.  The lexicographic side enumerates, component by component,
the anisotropic tensor indices with the x coordinate running fastest and
d + 2 samples along the component axis (the continuous axis) and d + 1
samples along the other axis; the face a lexicographic dof belongs to is
determined by its sample index t along the component axis (t = 0: low
face, t = d + 1: high face, otherwise interior). -/
def rt_lex_to_hier_2d (d ell : ℕ) : ℕ :=
  let nsub := (d + 2) * (d + 1)
  let dpF := d + 1
  let c := ell / nsub
  let i := ell % nsub
  let t := if c = 0 then i % (d + 2) else i / (d + 1)
  let r := if c = 0 then i / (d + 2) else i % (d + 1)
  if t = 0 then 2 * c * dpF + r
  else if t = d + 1 then (2 * c + 1) * dpF + r
  else 4 * dpF + c * (d * dpF) + (t - 1) * dpF + r

/-- Modelled from the spec: the lexicographic-to-hierarchic map for dim = 3,
in the same layout as rt_lex_to_hier_2d.  For component c the anisotropic
tensor index enumerates x fastest, then y, then z, with d + 2 samples
along axis c and d + 1 samples along the other two axes; t is the sample
index along axis c and r the lexicographic index of the remaining two
coordinates within the (d+1)^2 dofs of one face layer. -/
def rt_lex_to_hier_3d (d ell : ℕ) : ℕ :=
  let dpF := (d + 1) * (d + 1)
  let nsub := (d + 2) * dpF
  let c := ell / nsub
  let i := ell % nsub
  let t :=
    if c = 0 then i % (d + 2)
    else if c = 1 then (i / (d + 1)) % (d + 2)
    else (i / (d + 1)) / (d + 1)
  let r :=
    if c = 0 then (i / (d + 2)) / (d + 1) * (d + 1) + (i / (d + 2)) % (d + 1)
    else if c = 1 then (i / (d + 1)) / (d + 2) * (d + 1) + i % (d + 1)
    else (i / (d + 1)) % (d + 1) * (d + 1) + i % (d + 1)
  if t = 0 then 2 * c * dpF + r
  else if t = d + 1 then (2 * c + 1) * dpF + r
  else 6 * dpF + c * (d * dpF) + (t - 1) * dpF + r

/-- Dispatch of the modelled lexicographic-to-hierarchic map on the
dimension (the element only exists for dim = 2 and dim = 3). -/
def rt_lex_to_hier (dim d : ℕ) : ℕ → ℕ :=
  match dim with
  | 2 => rt_lex_to_hier_2d d
  | 3 => rt_lex_to_hier_3d d
  | _ => id

/-- Modelled from the spec: the full lexicographic-to-hierarchic numbering
vector built at construction (the callee is not in src/); entry ell is the
hierarchic index of lexicographic dof ell. -/
def get_lexicographic_numbering_rt_nodal (dim d : ℕ) : List ℕ :=
  (List.range (n_polynomials dim d)).map (rt_lex_to_hier dim d)

/-- Modelled from the spec: Utilities::invert_permutation (not in src/)
returns the inverse of a permutation vector p, the vector q with
q[p[i]] = i; for a permutation this is the vector whose entry j is the
unique index at which j occurs in p. -/
def invert_permutation (p : List ℕ) : List ℕ :=
  (List.range p.length).map fun j => p.indexOf j

/-- Helper: the lexicographic index (dim = 2) of the dof of component c
with sample index t along the component axis and transversal index r; used
to exhibit preimages of the numbering map. -/
def enc2 (d c t r : ℕ) : ℕ :=
  if c = 0 then t + r * (d + 2) else (r + t * (d + 1)) + (d + 2) * (d + 1)

/-- Helper: the lexicographic index (dim = 3) of the dof of component c
with sample index t along the component axis and transversal index r
(with r decomposed into its two remaining coordinates); used to exhibit
preimages of the numbering map. -/
def enc3 (d c t r : ℕ) : ℕ :=
  let a := r % (d + 1)
  let b := r / (d + 1)
  if c = 0 then t + (a + b * (d + 1)) * (d + 2)
  else if c = 1 then
    (a + (t + b * (d + 2)) * (d + 1)) + (d + 2) * ((d + 1) * (d + 1))
  else
    (a + (b + t * (d + 1)) * (d + 1)) + 2 * ((d + 2) * ((d + 1) * (d + 1)))

/-!
Definitions written from the wording of the spec (claim side), to be
compared against the code-side definitions above.
-/

/-- Claim side, C2: the permuted index for each of the 8 orientation cases,
as tabulated in the spec with i = local mod n and j = local div n. -/
def quad_face_permuted_index (n loc : ℕ) (o f r : Bool) : ℕ :=
  let i := loc % n
  let j := loc / n
  match o, f, r with
  | false, false, false => j + i * n
  | false, false, true => i + (n - 1 - j) * n
  | false, true, false => (n - 1 - j) + (n - 1 - i) * n
  | false, true, true => (n - 1 - i) + j * n
  | true, false, false => loc
  | true, false, true => j + (n - 1 - i) * n
  | true, true, false => (n - 1 - i) + (n - 1 - j) * n
  | true, true, true => (n - 1 - j) + i * n

/-- Claim side, C3: the element families this core recognizes -- itself and
the explicit no-dof placeholder. -/
def recognized_family : SourceFE → Prop
  | .rtNodal _ => True
  | .feNothing _ => True
  | .otherFamily => False

instance : DecidablePred recognized_family := by
  intro src
  cases src <;> simp [recognized_family] <;> infer_instance

/-- Claim side, C6: the line dof identities as the spec states them, in
terms of the two constructor degrees. -/
def hpLineDofIdentities_spec (dim p q : ℕ) : List (ℕ × ℕ) :=
  if dim ≠ 2 then []
  else if p = q then (List.range (p + 1)).map fun i => (i, i)
  else if Even p ∧ Even q then [(p / 2, q / 2)]
  else []

/-- Claim side, C7: the quad dof identities as the spec states them, in
terms of the two per-face dof counts. -/
def hpQuadDofIdentities_spec (dim p q : ℕ) : List (ℕ × ℕ) :=
  if dim ≠ 3 then []
  else if p = q then (List.range p).map fun i => (i, i)
  else if Odd p ∧ Odd q then [(p / 2, q / 2)]
  else []

/-- Claim side, C8: the domination result as the spec states it, in terms
of the two degrees. -/
def compareForDomination_spec (p q : ℕ) : Domination :=
  if p < q then .this_element_dominates
  else if p = q then .either_element_can_dominate
  else .other_element_dominates

/-- Claim side, C10: the component each nodal position reads from its
support point value: face positions (in face-major blocks of
n_dofs_per_face) read the component unit_normal_direction of their face;
the remaining positions split into dim equal consecutive chunks and chunk
c reads component c. -/
def expected_component (dim d : ℕ) (und : ℕ → ℕ) (p : ℕ) : ℕ :=
  let dpF := n_dofs_per_face dim d
  let fbase := 2 * dim * dpF
  if p < fbase then und (p / dpF)
  else (p - fbase) / ((n_polynomials dim d - fbase) / dim)

/-!
Helper lemmas.
-/

theorem foldl_mul_const (m : ℕ) :
    ∀ k a, (List.range k).foldl (fun a _ => a * m) a = a * m ^ k := by
  intro k
  induction k with
  | zero => intro a; simp
  | succ k ih =>
    intro a
    rw [List.range_succ, List.foldl_append]
    simp only [List.foldl_cons, List.foldl_nil, ih]
    ring

theorem rt_dofs_per_face_eq (dim d : ℕ) :
    rt_dofs_per_face dim d = (d + 1) ^ (dim - 1) := by
  simp [rt_dofs_per_face, foldl_mul_const]

theorem n_dofs_per_face_dim2 (d : ℕ) : n_dofs_per_face 2 d = d + 1 := by
  simp [n_dofs_per_face, get_rt_dpo_vector, rt_dofs_per_face_eq]

theorem n_dofs_per_face_dim3 (d : ℕ) :
    n_dofs_per_face 3 d = (d + 1) * (d + 1) := by
  simp [n_dofs_per_face, get_rt_dpo_vector, rt_dofs_per_face_eq]
  ring

theorem n_dofs_per_quad_eq (d : ℕ) : n_dofs_per_quad d = (d + 1) * (d + 1) := by
  simp [n_dofs_per_quad, get_rt_dpo_vector, rt_dofs_per_face_eq]
  ring

theorem n_polynomials_dim2 (d : ℕ) :
    n_polynomials 2 d = 2 * (d + 2) * (d + 1) := by
  simp [n_polynomials]

theorem n_polynomials_dim3 (d : ℕ) :
    n_polynomials 3 d = 3 * (d + 2) * ((d + 1) * (d + 1)) := by
  simp [n_polynomials]
  ring

theorem n_dofs_per_face_pos (dim p : ℕ) (hdim : dim = 2 ∨ dim = 3) :
    0 < n_dofs_per_face dim p := by
  rcases hdim with h | h <;> subst h
  · rw [n_dofs_per_face_dim2]; omega
  · rw [n_dofs_per_face_dim3]; positivity

theorem flatMap_blocks {α : Type} (g : ℕ → ℕ → α) (s off : ℕ) :
    ∀ k, (List.range k).flatMap
        (fun b => (List.range s).map (fun i => g b (off + b * s + i))) =
      (List.range' off (k * s)).map (fun p => g ((p - off) / s) p) := by
  intro k
  induction k with
  | zero => simp
  | succ k ih =>
    rw [List.range_succ, List.flatMap_append, ih]
    have hsplit : List.range' off ((k + 1) * s) =
        List.range' off (k * s) ++ List.range' (off + k * s) s := by
      rw [List.range'_append_1]
      congr 1
      ring
    rw [hsplit, List.map_append]
    congr 1
    simp only [List.flatMap_cons, List.flatMap_nil, List.append_nil]
    rw [List.range'_eq_map_range, List.map_map]
    apply List.map_congr_left
    intro i hi
    have his : i < s := List.mem_range.mp hi
    have hs : 0 < s := Nat.lt_of_le_of_lt (Nat.zero_le _) his
    simp only [Function.comp_apply]
    have h1 : off + k * s + i - off = s * k + i := by ring_nf; omega
    have h2 : (off + k * s + i - off) / s = k := by
      rw [h1, Nat.mul_add_div hs, Nat.div_eq_of_lt his]
      omega
    rw [h2]

theorem f2_branchval_lt (d c t r : ℕ) (hc : c ≤ 1) (ht : t < d + 2)
    (hr : r < d + 1) :
    (if t = 0 then 2 * c * (d + 1) + r
     else if t = d + 1 then (2 * c + 1) * (d + 1) + r
     else 4 * (d + 1) + c * (d * (d + 1)) + (t - 1) * (d + 1) + r) <
      2 * ((d + 2) * (d + 1)) := by
  have hkey : 2 * ((d + 2) * (d + 1)) = 4 * (d + 1) + 2 * (d * (d + 1)) := by
    ring
  split_ifs with h1 h2
  · have hb : 2 * c * (d + 1) ≤ 2 * 1 * (d + 1) :=
      Nat.mul_le_mul_right _ (by omega)
    omega
  · have hb : (2 * c + 1) * (d + 1) ≤ 3 * (d + 1) :=
      Nat.mul_le_mul_right _ (by omega)
    omega
  · have hcb : c * (d * (d + 1)) ≤ 1 * (d * (d + 1)) :=
      Nat.mul_le_mul_right _ hc
    have h3 : t - 1 + 1 = t := by omega
    have hsub : (t - 1) * (d + 1) + (d + 1) = t * (d + 1) := by
      calc (t - 1) * (d + 1) + (d + 1) = (t - 1 + 1) * (d + 1) := by ring
        _ = t * (d + 1) := by rw [h3]
    have hmono : t * (d + 1) ≤ d * (d + 1) :=
      Nat.mul_le_mul_right _ (by omega)
    omega

theorem rt_lex_to_hier_2d_enc2 (d c t r : ℕ) (hc : c ≤ 1) (ht : t < d + 2)
    (hr : r < d + 1) :
    rt_lex_to_hier_2d d (enc2 d c t r) =
      (if t = 0 then 2 * c * (d + 1) + r
       else if t = d + 1 then (2 * c + 1) * (d + 1) + r
       else 4 * (d + 1) + c * (d * (d + 1)) + (t - 1) * (d + 1) + r) := by
  rcases (by omega : c = 0 ∨ c = 1) with h | h <;> subst h
  · have hlt : t + r * (d + 2) < (d + 2) * (d + 1) := by
      have h1 : r * (d + 2) ≤ d * (d + 2) := Nat.mul_le_mul_right _ (by omega)
      have h2 : (d + 2) * (d + 1) = d * (d + 2) + (d + 2) := by ring
      omega
    have hdiv : (t + r * (d + 2)) / ((d + 2) * (d + 1)) = 0 :=
      Nat.div_eq_of_lt hlt
    have hmod : (t + r * (d + 2)) % ((d + 2) * (d + 1)) = t + r * (d + 2) :=
      Nat.mod_eq_of_lt hlt
    have hT : (t + r * (d + 2)) % (d + 2) = t := by
      rw [Nat.add_mul_mod_self_right, Nat.mod_eq_of_lt ht]
    have hR : (t + r * (d + 2)) / (d + 2) = r := by
      rw [Nat.add_mul_div_right _ _ (by omega : 0 < d + 2),
        Nat.div_eq_of_lt ht, Nat.zero_add]
    simp only [enc2, reduceIte]
    simp only [rt_lex_to_hier_2d, hdiv, hmod, reduceIte, hT, hR]
  · have hinner : r + t * (d + 1) < (d + 2) * (d + 1) := by
      have h1 : t * (d + 1) ≤ (d + 1) * (d + 1) :=
        Nat.mul_le_mul_right _ (by omega)
      have h2 : (d + 2) * (d + 1) = (d + 1) * (d + 1) + (d + 1) := by ring
      omega
    have hdiv : (r + t * (d + 1) + (d + 2) * (d + 1)) / ((d + 2) * (d + 1)) =
        1 := by
      rw [Nat.add_div_right _ (by positivity), Nat.div_eq_of_lt hinner]
    have hmod : (r + t * (d + 1) + (d + 2) * (d + 1)) % ((d + 2) * (d + 1)) =
        r + t * (d + 1) := by
      rw [Nat.add_mod_right, Nat.mod_eq_of_lt hinner]
    have hT : (r + t * (d + 1)) / (d + 1) = t := by
      rw [Nat.add_mul_div_right _ _ (by omega : 0 < d + 1),
        Nat.div_eq_of_lt hr, Nat.zero_add]
    have hR : (r + t * (d + 1)) % (d + 1) = r := by
      rw [Nat.add_mul_mod_self_right, Nat.mod_eq_of_lt hr]
    have hne10 : ¬ ((1 : ℕ) = 0) := by omega
    simp only [enc2, if_neg hne10]
    simp only [rt_lex_to_hier_2d, hdiv, hmod, if_neg hne10, hT, hR]

theorem rt_lex_to_hier_2d_lt (d ell : ℕ)
    (hl : ell < 2 * ((d + 2) * (d + 1))) :
    rt_lex_to_hier_2d d ell < 2 * ((d + 2) * (d + 1)) := by
  have hd2 : 0 < d + 2 := by omega
  have hnsub : 0 < (d + 2) * (d + 1) := by positivity
  have hc2 : ell / ((d + 2) * (d + 1)) < 2 := (Nat.div_lt_iff_lt_mul hnsub).mpr hl
  have hi : ell % ((d + 2) * (d + 1)) < (d + 2) * (d + 1) := Nat.mod_lt _ hnsub
  by_cases h0 : ell / ((d + 2) * (d + 1)) = 0
  · have ht : ell % ((d + 2) * (d + 1)) % (d + 2) < d + 2 := Nat.mod_lt _ hd2
    have hr : ell % ((d + 2) * (d + 1)) / (d + 2) < d + 1 := by
      rw [Nat.div_lt_iff_lt_mul hd2]
      calc ell % ((d + 2) * (d + 1)) < (d + 2) * (d + 1) := hi
        _ = (d + 1) * (d + 2) := by ring
    have hb := f2_branchval_lt d 0 (ell % ((d + 2) * (d + 1)) % (d + 2))
      (ell % ((d + 2) * (d + 1)) / (d + 2)) (by omega) ht hr
    simp only [rt_lex_to_hier_2d, h0, reduceIte]
    exact hb
  · have h1 : ell / ((d + 2) * (d + 1)) = 1 :=
      Nat.le_antisymm (Nat.lt_succ_iff.mp hc2)
        (Nat.one_le_iff_ne_zero.mpr h0)
    have ht : ell % ((d + 2) * (d + 1)) / (d + 1) < d + 2 := by
      rw [Nat.div_lt_iff_lt_mul (by omega : 0 < d + 1)]
      exact hi
    have hr : ell % ((d + 2) * (d + 1)) % (d + 1) < d + 1 :=
      Nat.mod_lt _ (by omega)
    have hb := f2_branchval_lt d 1 (ell % ((d + 2) * (d + 1)) / (d + 1))
      (ell % ((d + 2) * (d + 1)) % (d + 1)) (by omega) ht hr
    have hne10 : ¬ ((1 : ℕ) = 0) := by omega
    simp only [rt_lex_to_hier_2d, h1, if_neg hne10]
    exact hb

theorem enc2_lt (d c t r : ℕ) (hc : c ≤ 1) (ht : t < d + 2)
    (hr : r < d + 1) :
    enc2 d c t r < 2 * ((d + 2) * (d + 1)) := by
  rcases (by omega : c = 0 ∨ c = 1) with h | h <;> subst h <;>
    simp only [enc2, reduceIte, if_neg (by omega : ¬ ((1 : ℕ) = 0))]
  · have h1 : r * (d + 2) ≤ d * (d + 2) := Nat.mul_le_mul_right _ (by omega)
    have h2 : 2 * ((d + 2) * (d + 1)) = 2 * (d * (d + 2)) + 2 * (d + 2) := by
      ring
    omega
  · have h1 : t * (d + 1) ≤ (d + 1) * (d + 1) :=
      Nat.mul_le_mul_right _ (by omega)
    have h2 : 2 * ((d + 2) * (d + 1)) =
        ((d + 1) * (d + 1) + (d + 1)) + (d + 2) * (d + 1) := by ring
    have h3 : (d + 2) * (d + 1) = (d + 1) * (d + 1) + (d + 1) := by ring
    omega

theorem f2_surj (d h : ℕ) (hh : h < 2 * ((d + 2) * (d + 1))) :
    ∃ ell, ell < 2 * ((d + 2) * (d + 1)) ∧ rt_lex_to_hier_2d d ell = h := by
  have hd1 : 0 < d + 1 := Nat.succ_pos d
  by_cases hface : h < 4 * (d + 1)
  · have hq4 : h / (d + 1) < 4 := (Nat.div_lt_iff_lt_mul hd1).mpr hface
    have hr : h % (d + 1) < d + 1 := Nat.mod_lt _ hd1
    have hdm : (d + 1) * (h / (d + 1)) + h % (d + 1) = h := Nat.div_add_mod h _
    have hc : h / (d + 1) / 2 ≤ 1 := by omega
    have hs : h / (d + 1) % 2 ≤ 1 := by omega
    have ht : h / (d + 1) % 2 * (d + 1) < d + 2 := by
      have := Nat.mul_le_mul_right (d + 1) hs
      omega
    refine ⟨enc2 d (h / (d + 1) / 2) (h / (d + 1) % 2 * (d + 1)) (h % (d + 1)),
      enc2_lt d _ _ _ hc ht hr, ?_⟩
    rw [rt_lex_to_hier_2d_enc2 d _ _ _ hc ht hr]
    have hexp : 2 * (h / (d + 1) / 2) * (d + 1) + h / (d + 1) % 2 * (d + 1) =
        (d + 1) * (h / (d + 1)) := by
      conv_rhs => rw [← Nat.div_add_mod (h / (d + 1)) 2]
      ring
    rcases (by omega : h / (d + 1) % 2 = 0 ∨ h / (d + 1) % 2 = 1) with hs0 | hs1
    · rw [hs0]
      rw [hs0] at hexp
      simp only [Nat.zero_mul, reduceIte]
      omega
    · rw [hs1]
      rw [hs1] at hexp
      have hne : ¬ (1 * (d + 1) = 0) := by omega
      have heq : 1 * (d + 1) = d + 1 := by omega
      rw [if_neg hne, if_pos heq]
      have hexp2 : (2 * (h / (d + 1) / 2) + 1) * (d + 1) =
          2 * (h / (d + 1) / 2) * (d + 1) + 1 * (d + 1) := by ring
      omega
  · rcases Nat.eq_zero_or_pos d with hd0 | hdpos
    · subst hd0; omega
    have hP : 0 < d * (d + 1) := Nat.mul_pos hdpos hd1
    have hkey : 2 * ((d + 2) * (d + 1)) = 4 * (d + 1) + 2 * (d * (d + 1)) := by
      ring
    have hm : h - 4 * (d + 1) < 2 * (d * (d + 1)) := by omega
    have hc : (h - 4 * (d + 1)) / (d * (d + 1)) ≤ 1 := by
      have := (Nat.div_lt_iff_lt_mul hP).mpr hm
      omega
    have hw : (h - 4 * (d + 1)) % (d * (d + 1)) < d * (d + 1) :=
      Nat.mod_lt _ hP
    have hdm1 : d * (d + 1) * ((h - 4 * (d + 1)) / (d * (d + 1))) +
        (h - 4 * (d + 1)) % (d * (d + 1)) = h - 4 * (d + 1) :=
      Nat.div_add_mod _ _
    have hu : (h - 4 * (d + 1)) % (d * (d + 1)) / (d + 1) < d :=
      (Nat.div_lt_iff_lt_mul hd1).mpr hw
    have hr : (h - 4 * (d + 1)) % (d * (d + 1)) % (d + 1) < d + 1 :=
      Nat.mod_lt _ hd1
    have hdm2 : (d + 1) * ((h - 4 * (d + 1)) % (d * (d + 1)) / (d + 1)) +
        (h - 4 * (d + 1)) % (d * (d + 1)) % (d + 1) =
        (h - 4 * (d + 1)) % (d * (d + 1)) := Nat.div_add_mod _ _
    have ht : (h - 4 * (d + 1)) % (d * (d + 1)) / (d + 1) + 1 < d + 2 :=
      Nat.lt_succ_of_lt (Nat.succ_lt_succ hu)
    refine ⟨enc2 d ((h - 4 * (d + 1)) / (d * (d + 1)))
      ((h - 4 * (d + 1)) % (d * (d + 1)) / (d + 1) + 1)
      ((h - 4 * (d + 1)) % (d * (d + 1)) % (d + 1)),
      enc2_lt d _ _ _ hc ht hr, ?_⟩
    rw [rt_lex_to_hier_2d_enc2 d _ _ _ hc ht hr]
    rw [if_neg (Nat.succ_ne_zero _), if_neg (Nat.ne_of_lt
      (Nat.succ_lt_succ hu))]
    simp only [Nat.add_sub_cancel]
    have e1 : (h - 4 * (d + 1)) / (d * (d + 1)) * (d * (d + 1)) =
        d * (d + 1) * ((h - 4 * (d + 1)) / (d * (d + 1))) := by ring
    have e2 : (h - 4 * (d + 1)) % (d * (d + 1)) / (d + 1) * (d + 1) =
        (d + 1) * ((h - 4 * (d + 1)) % (d * (d + 1)) / (d + 1)) := by ring
    have e3 : ((h - 4 * (d + 1)) / (d * (d + 1))) * (d * (d + 1)) =
        (h - 4 * (d + 1)) / (d * (d + 1)) * (d * (d + 1)) := rfl
    omega

theorem f3_branchval_lt (d c t r : ℕ) (hc : c ≤ 2) (ht : t < d + 2)
    (hr : r < (d + 1) * (d + 1)) :
    (if t = 0 then 2 * c * ((d + 1) * (d + 1)) + r
     else if t = d + 1 then (2 * c + 1) * ((d + 1) * (d + 1)) + r
     else 6 * ((d + 1) * (d + 1)) + c * (d * ((d + 1) * (d + 1))) +
       (t - 1) * ((d + 1) * (d + 1)) + r) <
      3 * ((d + 2) * ((d + 1) * (d + 1))) := by
  have hkey : 3 * ((d + 2) * ((d + 1) * (d + 1))) =
      6 * ((d + 1) * (d + 1)) + 3 * (d * ((d + 1) * (d + 1))) := by ring
  split_ifs with h1 h2
  · have hb : 2 * c * ((d + 1) * (d + 1)) ≤ 2 * 2 * ((d + 1) * (d + 1)) :=
      Nat.mul_le_mul_right _ (by omega)
    omega
  · have hb : (2 * c + 1) * ((d + 1) * (d + 1)) ≤ 5 * ((d + 1) * (d + 1)) :=
      Nat.mul_le_mul_right _ (by omega)
    omega
  · have hcb : c * (d * ((d + 1) * (d + 1))) ≤
        2 * (d * ((d + 1) * (d + 1))) := Nat.mul_le_mul_right _ hc
    have h3 : t - 1 + 1 = t := by omega
    have hsub : (t - 1) * ((d + 1) * (d + 1)) + (d + 1) * (d + 1) =
        t * ((d + 1) * (d + 1)) := by
      calc (t - 1) * ((d + 1) * (d + 1)) + (d + 1) * (d + 1) =
            (t - 1 + 1) * ((d + 1) * (d + 1)) := by ring
        _ = t * ((d + 1) * (d + 1)) := by rw [h3]
    have hmono : t * ((d + 1) * (d + 1)) ≤ d * ((d + 1) * (d + 1)) :=
      Nat.mul_le_mul_right _ (by omega)
    omega

theorem enc3_inner0_lt (d a b t : ℕ) (ha : a < d + 1) (hb : b < d + 1)
    (ht : t < d + 2) :
    t + (a + b * (d + 1)) * (d + 2) < (d + 2) * ((d + 1) * (d + 1)) := by
  have hbb : b * (d + 1) ≤ d * (d + 1) := Nat.mul_le_mul_right _ (by omega)
  have hQs : (a + b * (d + 1) + 1) * (d + 2) ≤
      ((d + 1) * (d + 1)) * (d + 2) := by
    apply Nat.mul_le_mul_right
    have hring : (d + 1) * (d + 1) = d * (d + 1) + (d + 1) := by ring
    omega
  have hexp : (a + b * (d + 1) + 1) * (d + 2) =
      (a + b * (d + 1)) * (d + 2) + (d + 2) := by ring
  have hcomm : (d + 2) * ((d + 1) * (d + 1)) =
      ((d + 1) * (d + 1)) * (d + 2) := by ring
  omega

theorem enc3_inner1_lt (d a b t : ℕ) (ha : a < d + 1) (hb : b < d + 1)
    (ht : t < d + 2) :
    a + (t + b * (d + 2)) * (d + 1) < (d + 2) * ((d + 1) * (d + 1)) := by
  have hbb : b * (d + 2) ≤ d * (d + 2) := Nat.mul_le_mul_right _ (by omega)
  have hmul : (t + b * (d + 2) + 1) * (d + 1) ≤
      ((d + 2) + d * (d + 2)) * (d + 1) := by
    apply Nat.mul_le_mul_right
    omega
  have hexp : (t + b * (d + 2) + 1) * (d + 1) =
      (t + b * (d + 2)) * (d + 1) + (d + 1) := by ring
  have hring : (d + 2) * ((d + 1) * (d + 1)) =
      ((d + 2) + d * (d + 2)) * (d + 1) := by ring
  omega

theorem enc3_inner2_lt (d a b t : ℕ) (ha : a < d + 1) (hb : b < d + 1)
    (ht : t < d + 2) :
    a + (b + t * (d + 1)) * (d + 1) < (d + 2) * ((d + 1) * (d + 1)) := by
  have htl : t * (d + 1) ≤ (d + 1) * (d + 1) := Nat.mul_le_mul_right _ (by omega)
  have hmul : (b + t * (d + 1) + 1) * (d + 1) ≤
      (d + (d + 1) * (d + 1) + 1) * (d + 1) := by
    apply Nat.mul_le_mul_right
    omega
  have hexp : (b + t * (d + 1) + 1) * (d + 1) =
      (b + t * (d + 1)) * (d + 1) + (d + 1) := by ring
  have hring : (d + 2) * ((d + 1) * (d + 1)) =
      (d + (d + 1) * (d + 1) + 1) * (d + 1) := by ring
  omega

theorem enc3_lt (d c t r : ℕ) (hc : c ≤ 2) (ht : t < d + 2)
    (hr : r < (d + 1) * (d + 1)) :
    enc3 d c t r < 3 * ((d + 2) * ((d + 1) * (d + 1))) := by
  have ha : r % (d + 1) < d + 1 := Nat.mod_lt _ (by omega)
  have hb : r / (d + 1) < d + 1 := by
    rw [Nat.div_lt_iff_lt_mul (by omega : 0 < d + 1)]
    exact hr
  have hne10 : ¬ ((1 : ℕ) = 0) := by omega
  have hne20 : ¬ ((2 : ℕ) = 0) := by omega
  have hne21 : ¬ ((2 : ℕ) = 1) := by omega
  rcases (by omega : c = 0 ∨ c = 1 ∨ c = 2) with h | h | h <;> subst h
  · simp only [enc3, reduceIte]
    have h1 := enc3_inner0_lt d (r % (d + 1)) (r / (d + 1)) t ha hb ht
    omega
  · simp only [enc3, if_neg hne10, reduceIte]
    have h1 := enc3_inner1_lt d (r % (d + 1)) (r / (d + 1)) t ha hb ht
    omega
  · simp only [enc3, if_neg hne20, if_neg hne21]
    have h1 := enc3_inner2_lt d (r % (d + 1)) (r / (d + 1)) t ha hb ht
    omega

theorem rt_lex_to_hier_3d_enc3 (d c t r : ℕ) (hc : c ≤ 2) (ht : t < d + 2)
    (hr : r < (d + 1) * (d + 1)) :
    rt_lex_to_hier_3d d (enc3 d c t r) =
      (if t = 0 then 2 * c * ((d + 1) * (d + 1)) + r
       else if t = d + 1 then (2 * c + 1) * ((d + 1) * (d + 1)) + r
       else 6 * ((d + 1) * (d + 1)) + c * (d * ((d + 1) * (d + 1))) +
         (t - 1) * ((d + 1) * (d + 1)) + r) := by
  have hd1 : 0 < d + 1 := by omega
  have hd2 : 0 < d + 2 := by omega
  have ha : r % (d + 1) < d + 1 := Nat.mod_lt _ hd1
  have hbb : r / (d + 1) < d + 1 := by
    rw [Nat.div_lt_iff_lt_mul hd1]
    exact hr
  have hne10 : ¬ ((1 : ℕ) = 0) := by omega
  have hne20 : ¬ ((2 : ℕ) = 0) := by omega
  have hne21 : ¬ ((2 : ℕ) = 1) := by omega
  rcases (by omega : c = 0 ∨ c = 1 ∨ c = 2) with h | h | h <;> subst h
  · have hlt := enc3_inner0_lt d (r % (d + 1)) (r / (d + 1)) t ha hbb ht
    have hdiv : (t + (r % (d + 1) + r / (d + 1) * (d + 1)) * (d + 2)) /
        ((d + 2) * ((d + 1) * (d + 1))) = 0 := Nat.div_eq_of_lt hlt
    have hmod : (t + (r % (d + 1) + r / (d + 1) * (d + 1)) * (d + 2)) %
        ((d + 2) * ((d + 1) * (d + 1))) =
        t + (r % (d + 1) + r / (d + 1) * (d + 1)) * (d + 2) :=
      Nat.mod_eq_of_lt hlt
    have hT : (t + (r % (d + 1) + r / (d + 1) * (d + 1)) * (d + 2)) %
        (d + 2) = t := by
      rw [Nat.add_mul_mod_self_right, Nat.mod_eq_of_lt ht]
    have hq : (t + (r % (d + 1) + r / (d + 1) * (d + 1)) * (d + 2)) /
        (d + 2) = r % (d + 1) + r / (d + 1) * (d + 1) := by
      rw [Nat.add_mul_div_right _ _ hd2, Nat.div_eq_of_lt ht, Nat.zero_add]
    have hz : (r % (d + 1) + r / (d + 1) * (d + 1)) / (d + 1) =
        r / (d + 1) := by
      rw [Nat.add_mul_div_right _ _ hd1, Nat.div_eq_of_lt ha, Nat.zero_add]
    have hy : (r % (d + 1) + r / (d + 1) * (d + 1)) % (d + 1) =
        r % (d + 1) := by
      rw [Nat.add_mul_mod_self_right, Nat.mod_eq_of_lt ha]
    simp only [enc3, reduceIte]
    simp only [rt_lex_to_hier_3d, hdiv, hmod, reduceIte, hT, hq, hz, hy,
      Nat.div_add_mod']
  · have hlt := enc3_inner1_lt d (r % (d + 1)) (r / (d + 1)) t ha hbb ht
    have hdiv : (r % (d + 1) + (t + r / (d + 1) * (d + 2)) * (d + 1) +
        (d + 2) * ((d + 1) * (d + 1))) / ((d + 2) * ((d + 1) * (d + 1))) =
        1 := by
      rw [Nat.add_div_right _ (by positivity), Nat.div_eq_of_lt hlt]
    have hmod : (r % (d + 1) + (t + r / (d + 1) * (d + 2)) * (d + 1) +
        (d + 2) * ((d + 1) * (d + 1))) % ((d + 2) * ((d + 1) * (d + 1))) =
        r % (d + 1) + (t + r / (d + 1) * (d + 2)) * (d + 1) := by
      rw [Nat.add_mod_right, Nat.mod_eq_of_lt hlt]
    have hx : (r % (d + 1) + (t + r / (d + 1) * (d + 2)) * (d + 1)) %
        (d + 1) = r % (d + 1) := by
      rw [Nat.add_mul_mod_self_right, Nat.mod_eq_of_lt ha]
    have hq : (r % (d + 1) + (t + r / (d + 1) * (d + 2)) * (d + 1)) /
        (d + 1) = t + r / (d + 1) * (d + 2) := by
      rw [Nat.add_mul_div_right _ _ hd1, Nat.div_eq_of_lt ha, Nat.zero_add]
    have hT : (t + r / (d + 1) * (d + 2)) % (d + 2) = t := by
      rw [Nat.add_mul_mod_self_right, Nat.mod_eq_of_lt ht]
    have hz : (t + r / (d + 1) * (d + 2)) / (d + 2) = r / (d + 1) := by
      rw [Nat.add_mul_div_right _ _ hd2, Nat.div_eq_of_lt ht, Nat.zero_add]
    simp only [enc3, if_neg hne10, reduceIte]
    simp only [rt_lex_to_hier_3d, hdiv, hmod, if_neg hne10, reduceIte, hx,
      hq, hT, hz, Nat.div_add_mod']
  · have hlt := enc3_inner2_lt d (r % (d + 1)) (r / (d + 1)) t ha hbb ht
    have hdiv : (r % (d + 1) + (r / (d + 1) + t * (d + 1)) * (d + 1) +
        2 * ((d + 2) * ((d + 1) * (d + 1)))) /
        ((d + 2) * ((d + 1) * (d + 1))) = 2 := by
      rw [Nat.add_mul_div_right _ _ (by positivity : 0 < (d + 2) *
        ((d + 1) * (d + 1))), Nat.div_eq_of_lt hlt, Nat.zero_add]
    have hmod : (r % (d + 1) + (r / (d + 1) + t * (d + 1)) * (d + 1) +
        2 * ((d + 2) * ((d + 1) * (d + 1)))) %
        ((d + 2) * ((d + 1) * (d + 1))) =
        r % (d + 1) + (r / (d + 1) + t * (d + 1)) * (d + 1) := by
      rw [Nat.add_mul_mod_self_right, Nat.mod_eq_of_lt hlt]
    have hx : (r % (d + 1) + (r / (d + 1) + t * (d + 1)) * (d + 1)) %
        (d + 1) = r % (d + 1) := by
      rw [Nat.add_mul_mod_self_right, Nat.mod_eq_of_lt ha]
    have hq : (r % (d + 1) + (r / (d + 1) + t * (d + 1)) * (d + 1)) /
        (d + 1) = r / (d + 1) + t * (d + 1) := by
      rw [Nat.add_mul_div_right _ _ hd1, Nat.div_eq_of_lt ha, Nat.zero_add]
    have hT : (r / (d + 1) + t * (d + 1)) / (d + 1) = t := by
      rw [Nat.add_mul_div_right _ _ hd1, Nat.div_eq_of_lt hbb, Nat.zero_add]
    have hy : (r / (d + 1) + t * (d + 1)) % (d + 1) = r / (d + 1) := by
      rw [Nat.add_mul_mod_self_right, Nat.mod_eq_of_lt hbb]
    simp only [enc3, if_neg hne20, if_neg hne21]
    simp only [rt_lex_to_hier_3d, hdiv, hmod, if_neg hne20, if_neg hne21,
      hx, hq, hT, hy, Nat.div_add_mod']

theorem zy_lt (d z y : ℕ) (hz : z < d + 1) (hy : y < d + 1) :
    z * (d + 1) + y < (d + 1) * (d + 1) := by
  have h1 : z * (d + 1) ≤ d * (d + 1) := Nat.mul_le_mul_right _ (by omega)
  have h2 : (d + 1) * (d + 1) = d * (d + 1) + (d + 1) := by ring
  omega

theorem rt_lex_to_hier_3d_lt (d ell : ℕ)
    (hl : ell < 3 * ((d + 2) * ((d + 1) * (d + 1)))) :
    rt_lex_to_hier_3d d ell < 3 * ((d + 2) * ((d + 1) * (d + 1))) := by
  have hd1 : 0 < d + 1 := by omega
  have hd2 : 0 < d + 2 := by omega
  have hnsub : 0 < (d + 2) * ((d + 1) * (d + 1)) := by positivity
  have hc3 : ell / ((d + 2) * ((d + 1) * (d + 1))) < 3 :=
    (Nat.div_lt_iff_lt_mul hnsub).mpr hl
  have hi : ell % ((d + 2) * ((d + 1) * (d + 1))) <
      (d + 2) * ((d + 1) * (d + 1)) := Nat.mod_lt _ hnsub
  have hq1 : ell % ((d + 2) * ((d + 1) * (d + 1))) / (d + 1) <
      (d + 2) * (d + 1) := by
    rw [Nat.div_lt_iff_lt_mul hd1]
    calc ell % ((d + 2) * ((d + 1) * (d + 1))) <
          (d + 2) * ((d + 1) * (d + 1)) := hi
      _ = (d + 2) * (d + 1) * (d + 1) := by ring
  have hne10 : ¬ ((1 : ℕ) = 0) := by omega
  have hne20 : ¬ ((2 : ℕ) = 0) := by omega
  have hne21 : ¬ ((2 : ℕ) = 1) := by omega
  by_cases h0 : ell / ((d + 2) * ((d + 1) * (d + 1))) = 0
  · have ht0 : ell % ((d + 2) * ((d + 1) * (d + 1))) % (d + 2) < d + 2 :=
      Nat.mod_lt _ hd2
    have hz0 : ell % ((d + 2) * ((d + 1) * (d + 1))) / (d + 2) / (d + 1) <
        d + 1 := by
      rw [Nat.div_lt_iff_lt_mul hd1, Nat.div_lt_iff_lt_mul hd2]
      calc ell % ((d + 2) * ((d + 1) * (d + 1))) <
            (d + 2) * ((d + 1) * (d + 1)) := hi
        _ = (d + 1) * (d + 1) * (d + 2) := by ring
    have hy0 : ell % ((d + 2) * ((d + 1) * (d + 1))) / (d + 2) % (d + 1) <
        d + 1 := Nat.mod_lt _ hd1
    have hb := f3_branchval_lt d 0
      (ell % ((d + 2) * ((d + 1) * (d + 1))) % (d + 2))
      (ell % ((d + 2) * ((d + 1) * (d + 1))) / (d + 2) / (d + 1) * (d + 1) +
        ell % ((d + 2) * ((d + 1) * (d + 1))) / (d + 2) % (d + 1))
      (by omega) ht0 (zy_lt d _ _ hz0 hy0)
    simp only [rt_lex_to_hier_3d, h0, reduceIte]
    exact hb
  · by_cases h1 : ell / ((d + 2) * ((d + 1) * (d + 1))) = 1
    · have ht1 : ell % ((d + 2) * ((d + 1) * (d + 1))) / (d + 1) % (d + 2) <
          d + 2 := Nat.mod_lt _ hd2
      have hz1 : ell % ((d + 2) * ((d + 1) * (d + 1))) / (d + 1) / (d + 2) <
          d + 1 := by
        rw [Nat.div_lt_iff_lt_mul hd2]
        calc ell % ((d + 2) * ((d + 1) * (d + 1))) / (d + 1) <
              (d + 2) * (d + 1) := hq1
          _ = (d + 1) * (d + 2) := by ring
      have hy1 : ell % ((d + 2) * ((d + 1) * (d + 1))) % (d + 1) < d + 1 :=
        Nat.mod_lt _ hd1
      have hb := f3_branchval_lt d 1
        (ell % ((d + 2) * ((d + 1) * (d + 1))) / (d + 1) % (d + 2))
        (ell % ((d + 2) * ((d + 1) * (d + 1))) / (d + 1) / (d + 2) * (d + 1) +
          ell % ((d + 2) * ((d + 1) * (d + 1))) % (d + 1))
        (by omega) ht1 (zy_lt d _ _ hz1 hy1)
      simp only [rt_lex_to_hier_3d, h1, if_neg hne10, reduceIte]
      exact hb
    · have h2 : ell / ((d + 2) * ((d + 1) * (d + 1))) = 2 := by
        have hle := Nat.lt_succ_iff.mp hc3
        have h2le : 2 ≤ ell / ((d + 2) * ((d + 1) * (d + 1))) := by
          by_contra hcon
          push_neg at hcon
          rcases Nat.lt_succ_iff_lt_or_eq.mp hcon with hx | hx
          · exact h0 (Nat.lt_one_iff.mp hx)
          · exact h1 hx
        exact Nat.le_antisymm hle h2le
      have ht2 : ell % ((d + 2) * ((d + 1) * (d + 1))) / (d + 1) / (d + 1) <
          d + 2 := by
        rw [Nat.div_lt_iff_lt_mul hd1]
        exact hq1
      have hz2 : ell % ((d + 2) * ((d + 1) * (d + 1))) / (d + 1) % (d + 1) <
          d + 1 := Nat.mod_lt _ hd1
      have hy2 : ell % ((d + 2) * ((d + 1) * (d + 1))) % (d + 1) < d + 1 :=
        Nat.mod_lt _ hd1
      have hb := f3_branchval_lt d 2
        (ell % ((d + 2) * ((d + 1) * (d + 1))) / (d + 1) / (d + 1))
        (ell % ((d + 2) * ((d + 1) * (d + 1))) / (d + 1) % (d + 1) * (d + 1) +
          ell % ((d + 2) * ((d + 1) * (d + 1))) % (d + 1))
        (by omega) ht2 (zy_lt d _ _ hz2 hy2)
      simp only [rt_lex_to_hier_3d, h2, if_neg hne20, if_neg hne21]
      exact hb

theorem f3_surj (d h : ℕ) (hh : h < 3 * ((d + 2) * ((d + 1) * (d + 1)))) :
    ∃ ell, ell < 3 * ((d + 2) * ((d + 1) * (d + 1))) ∧
      rt_lex_to_hier_3d d ell = h := by
  have hd1 : 0 < d + 1 := by omega
  have hdpF : 0 < (d + 1) * (d + 1) := by positivity
  by_cases hface : h < 6 * ((d + 1) * (d + 1))
  · obtain ⟨q, hq⟩ : ∃ x, h / ((d + 1) * (d + 1)) = x := ⟨_, rfl⟩
    obtain ⟨r, hrd⟩ : ∃ x, h % ((d + 1) * (d + 1)) = x := ⟨_, rfl⟩
    have hq6 : q < 6 := by
      rw [← hq]
      exact (Nat.div_lt_iff_lt_mul hdpF).mpr hface
    have hr : r < (d + 1) * (d + 1) := by
      rw [← hrd]
      exact Nat.mod_lt _ hdpF
    have hdm := Nat.div_add_mod h ((d + 1) * (d + 1))
    rw [hq, hrd] at hdm
    have hc : q / 2 ≤ 2 := by omega
    have hs : q % 2 ≤ 1 := by omega
    have ht : q % 2 * (d + 1) < d + 2 := by
      have := Nat.mul_le_mul_right (d + 1) hs
      omega
    refine ⟨enc3 d (q / 2) (q % 2 * (d + 1)) r, enc3_lt d _ _ _ hc ht hr, ?_⟩
    rw [rt_lex_to_hier_3d_enc3 d _ _ _ hc ht hr]
    have hexp : 2 * (q / 2) * ((d + 1) * (d + 1)) +
        q % 2 * ((d + 1) * (d + 1)) = (d + 1) * (d + 1) * q := by
      conv_rhs => rw [← Nat.div_add_mod q 2]
      ring
    rcases (by omega : q % 2 = 0 ∨ q % 2 = 1) with hs0 | hs1
    · rw [hs0]
      rw [hs0] at hexp
      simp only [Nat.zero_mul, reduceIte]
      simp only [Nat.zero_mul] at hexp
      omega
    · rw [hs1]
      rw [hs1] at hexp
      rw [if_neg (by omega : ¬ (1 * (d + 1) = 0)),
        if_pos (by omega : 1 * (d + 1) = d + 1)]
      have hexp2 : (2 * (q / 2) + 1) * ((d + 1) * (d + 1)) =
          2 * (q / 2) * ((d + 1) * (d + 1)) + 1 * ((d + 1) * (d + 1)) := by
        ring
      omega
  · rcases Nat.eq_zero_or_pos d with hd0 | hdpos
    · subst hd0
      omega
    have hP : 0 < d * ((d + 1) * (d + 1)) := Nat.mul_pos hdpos hdpF
    have hkey : 3 * ((d + 2) * ((d + 1) * (d + 1))) =
        6 * ((d + 1) * (d + 1)) + 3 * (d * ((d + 1) * (d + 1))) := by ring
    obtain ⟨m, hmd⟩ : ∃ x, h - 6 * ((d + 1) * (d + 1)) = x := ⟨_, rfl⟩
    have hm : m < 3 * (d * ((d + 1) * (d + 1))) := by omega
    obtain ⟨c, hcd⟩ : ∃ x, m / (d * ((d + 1) * (d + 1))) = x := ⟨_, rfl⟩
    obtain ⟨w, hwd⟩ : ∃ x, m % (d * ((d + 1) * (d + 1))) = x := ⟨_, rfl⟩
    have hc3 : c < 3 := by
      rw [← hcd]
      exact (Nat.div_lt_iff_lt_mul hP).mpr hm
    have hw : w < d * ((d + 1) * (d + 1)) := by
      rw [← hwd]
      exact Nat.mod_lt _ hP
    have hdm1 := Nat.div_add_mod m (d * ((d + 1) * (d + 1)))
    rw [hcd, hwd] at hdm1
    obtain ⟨u, hud⟩ : ∃ x, w / ((d + 1) * (d + 1)) = x := ⟨_, rfl⟩
    obtain ⟨r, hrd⟩ : ∃ x, w % ((d + 1) * (d + 1)) = x := ⟨_, rfl⟩
    have hu : u < d := by
      rw [← hud]
      exact (Nat.div_lt_iff_lt_mul hdpF).mpr hw
    have hr : r < (d + 1) * (d + 1) := by
      rw [← hrd]
      exact Nat.mod_lt _ hdpF
    have hdm2 := Nat.div_add_mod w ((d + 1) * (d + 1))
    rw [hud, hrd] at hdm2
    have ht : u + 1 < d + 2 := Nat.lt_succ_of_lt (Nat.succ_lt_succ hu)
    refine ⟨enc3 d c (u + 1) r, enc3_lt d _ _ _ (by omega) ht hr, ?_⟩
    rw [rt_lex_to_hier_3d_enc3 d _ _ _ (by omega) ht hr]
    rw [if_neg (Nat.succ_ne_zero _),
      if_neg (Nat.ne_of_lt (Nat.succ_lt_succ hu))]
    simp only [Nat.add_sub_cancel]
    have e1 : c * (d * ((d + 1) * (d + 1))) =
        d * ((d + 1) * (d + 1)) * c := by ring
    have e2 : u * ((d + 1) * (d + 1)) = (d + 1) * (d + 1) * u := by ring
    omega

theorem invert_perm_spec (N : ℕ) (f : ℕ → ℕ)
    (hbound : ∀ i, i < N → f i < N)
    (hsurj : ∀ h, h < N → ∃ ell, ell < N ∧ f ell = h)
    (i : ℕ) (hi : i < N) :
    (invert_permutation ((List.range N).map f)).getD
        (((List.range N).map f).getD i 0) 0 = i ∧
    ((List.range N).map f).getD
        ((invert_permutation ((List.range N).map f)).getD i 0) 0 = i := by
  have hlen : ((List.range N).map f).length = N := by simp
  have hinj : ∀ a b, a < N → b < N → f a = f b → a = b := by
    intro a b ha hb hab
    have hFsurj : Function.Surjective
        (fun x : Fin N => (⟨f x.1, hbound x.1 x.2⟩ : Fin N)) := by
      intro y
      obtain ⟨ell, hell, hfell⟩ := hsurj y.1 y.2
      exact ⟨⟨ell, hell⟩, Fin.ext hfell⟩
    have hFinj : Function.Injective
        (fun x : Fin N => (⟨f x.1, hbound x.1 x.2⟩ : Fin N)) :=
      (Finite.surjective_iff_bijective.mp hFsurj).1
    have hx : (⟨a, ha⟩ : Fin N) = ⟨b, hb⟩ := hFinj (Fin.ext hab)
    exact congrArg Fin.val hx
  have hgetp : ∀ j, (hj : j < N) →
      ((List.range N).map f).getD j 0 = f j := by
    intro j hj
    rw [List.getD_eq_getElem _ _ (by rw [hlen]; exact hj)]
    simp
  have hnodup : ((List.range N).map f).Nodup := by
    apply List.Nodup.map_on
    · intro a ha b hb hab
      exact hinj a b (List.mem_range.mp ha) (List.mem_range.mp hb) hab
    · exact List.nodup_range N
  have hmem : ∀ j, j < N → j ∈ (List.range N).map f := by
    intro j hj
    obtain ⟨ell, hell, hfell⟩ := hsurj j hj
    rw [List.mem_map]
    exact ⟨ell, List.mem_range.mpr hell, hfell⟩
  have hgetq : ∀ j, j < N →
      (invert_permutation ((List.range N).map f)).getD j 0 =
        ((List.range N).map f).indexOf j := by
    intro j hj
    rw [invert_permutation, List.getD_eq_getElem _ _ (by simp [hlen]; exact hj)]
    simp
  constructor
  · rw [hgetp i hi, hgetq (f i) (hbound i hi)]
    have hilen : i < ((List.range N).map f).length := by
      rw [hlen]
      exact hi
    have h1 := List.indexOf_getElem hnodup i hilen
    simpa using h1
  · rw [hgetq i hi]
    have hidx : ((List.range N).map f).indexOf i <
        ((List.range N).map f).length :=
      List.indexOf_lt_length.mpr (hmem i hi)
    rw [List.getD_eq_getElem _ _ hidx]
    exact List.getElem_indexOf hidx

/-!
Claim theorems.
-/

/-- C5: for dim in 2, 3 and every constructor degree d, the basis size is
N = dim * (d+2) * (d+1)^(dim-1); the dofs-per-object vector carries 0 dofs
on vertices and (in 3-D) edges, (d+1)^(dim-1) dofs on the codimension-one
face and dim * d * (d+1)^(dim-1) interior dofs; and the per-entity counts,
weighted with the number of entities of the reference hypercube (4
vertices, 4 lines, 1 cell in 2-D; 8 vertices, 12 lines, 6 quads, 1 cell in
3-D), sum to N. -/
theorem rt_dof_counts (dim d : ℕ) (hdim : dim = 2 ∨ dim = 3) :
    n_polynomials dim d = dim * (d + 2) * (d + 1) ^ (dim - 1) ∧
    (get_rt_dpo_vector dim d).getD 0 0 = 0 ∧
    (dim = 3 → (get_rt_dpo_vector dim d).getD 1 0 = 0) ∧
    (get_rt_dpo_vector dim d).getD (dim - 1) 0 = (d + 1) ^ (dim - 1) ∧
    (get_rt_dpo_vector dim d).getD dim 0 = dim * d * (d + 1) ^ (dim - 1) ∧
    (dim = 2 →
      4 * (get_rt_dpo_vector 2 d).getD 0 0 +
        4 * (get_rt_dpo_vector 2 d).getD 1 0 +
        1 * (get_rt_dpo_vector 2 d).getD 2 0 = n_polynomials 2 d) ∧
    (dim = 3 →
      8 * (get_rt_dpo_vector 3 d).getD 0 0 +
        12 * (get_rt_dpo_vector 3 d).getD 1 0 +
        6 * (get_rt_dpo_vector 3 d).getD 2 0 +
        1 * (get_rt_dpo_vector 3 d).getD 3 0 = n_polynomials 3 d) := by
  rcases hdim with h | h <;> subst h <;>
    simp [n_polynomials, get_rt_dpo_vector, rt_dofs_per_face_eq] <;> ring

/-- C5 witness: the statement instantiated at dim = 2, d = 1. -/
theorem rt_dof_counts_witness :
    n_polynomials 2 1 = 2 * (1 + 2) * (1 + 1) ^ (2 - 1) ∧
    (get_rt_dpo_vector 2 1).getD 0 0 = 0 ∧
    (2 = 3 → (get_rt_dpo_vector 2 1).getD 1 0 = 0) ∧
    (get_rt_dpo_vector 2 1).getD (2 - 1) 0 = (1 + 1) ^ (2 - 1) ∧
    (get_rt_dpo_vector 2 1).getD 2 0 = 2 * 1 * (1 + 1) ^ (2 - 1) ∧
    (2 = 2 →
      4 * (get_rt_dpo_vector 2 1).getD 0 0 +
        4 * (get_rt_dpo_vector 2 1).getD 1 0 +
        1 * (get_rt_dpo_vector 2 1).getD 2 0 = n_polynomials 2 1) ∧
    (2 = 3 →
      8 * (get_rt_dpo_vector 3 1).getD 0 0 +
        12 * (get_rt_dpo_vector 3 1).getD 1 0 +
        6 * (get_rt_dpo_vector 3 1).getD 2 0 +
        1 * (get_rt_dpo_vector 3 1).getD 3 0 = n_polynomials 3 1) :=
  rt_dof_counts 2 1 (Or.inl rfl)

/-- C1: for every sample count n = this->degree and every local
face-interior dof index, the sign table built at construction carries the
sign +1 in each of its 8 orientation columns (columns 0 to 3 are written
as 1 by the constructor; the remaining columns keep the spec-modelled
default +1). -/
theorem quad_dof_sign_all_plus_one (n loc col : ℕ) (hloc : loc < n * n)
    (hcol : col < 8) :
    adjust_quad_dof_sign_for_face_orientation_table n loc col = 1 := by
  unfold adjust_quad_dof_sign_for_face_orientation_table quad_dof_sign_default
  split <;> rfl

/-- C1 witness: the sign entry at n = 2, local index 1, column 5. -/
theorem quad_dof_sign_all_plus_one_witness :
    adjust_quad_dof_sign_for_face_orientation_table 2 1 5 = 1 :=
  quad_dof_sign_all_plus_one 2 1 5 (by decide) (by decide)

/-- C2: for every local face-interior index below n * n, the index-delta
table entry of every orientation case (column 4*orientation + 2*flip +
rotation) equals the spec-tabulated permuted index minus the local index;
in particular for n = 1 every one of the 8 deltas is 0. -/
theorem quad_dof_index_table_matches_spec (n loc : ℕ) (hloc : loc < n * n) :
    (∀ o f r : Bool,
      adjust_quad_dof_index_for_face_orientation_table n loc
          (4 * o.toNat + 2 * f.toNat + r.toNat) =
        (quad_face_permuted_index n loc o f r : ℤ) - (loc : ℤ)) ∧
    (n = 1 → ∀ col, col < 8 →
      adjust_quad_dof_index_for_face_orientation_table n loc col = 0) := by
  constructor
  · intro o f r
    cases o <;> cases f <;> cases r <;>
      simp [adjust_quad_dof_index_for_face_orientation_table,
        quad_face_permuted_index]
  · intro hn col hcol
    subst hn
    have hz : loc = 0 := by omega
    subst hz
    interval_cases col <;>
      simp [adjust_quad_dof_index_for_face_orientation_table]

/-- C2 witness: the statement instantiated at n = 2, local index 3. -/
theorem quad_dof_index_table_matches_spec_witness :
    (∀ o f r : Bool,
      adjust_quad_dof_index_for_face_orientation_table 2 3
          (4 * o.toNat + 2 * f.toNat + r.toNat) =
        (quad_face_permuted_index 2 3 o f r : ℤ) - (3 : ℤ)) ∧
    (2 = 1 → ∀ col, col < 8 →
      adjust_quad_dof_index_for_face_orientation_table 2 3 col = 0) :=
  quad_dof_index_table_matches_spec 2 3 (by decide)

/-- C3: for dim in 2, 3, the face (and subface) interpolation matrix
builder fails with the NotImplemented interpolation exception exactly when
the source element is of an unrecognized family or its per-face dof count
is below this element's; for a same-family source with per-face dof count
at least this element's, both guards pass and the matrix is filled. -/
theorem face_interpolation_guard_iff (dim p : ℕ) (src : SourceFE) (sub : ℕ)
    (hdim : dim = 2 ∨ dim = 3) :
    (get_face_interpolation_matrix_check dim p src =
        .error .interpNotImplemented ↔
      (¬ recognized_family src ∨
        source_n_dofs_per_face dim src < n_dofs_per_face dim p)) ∧
    get_subface_interpolation_matrix_check dim p src sub =
      get_face_interpolation_matrix_check dim p src ∧
    (∀ q, src = .rtNodal q →
      n_dofs_per_face dim p ≤ n_dofs_per_face dim q →
      get_face_interpolation_matrix_check dim p src = .ok ()) := by
  have hpos := n_dofs_per_face_pos dim p hdim
  refine ⟨?_, rfl, ?_⟩
  · cases src with
    | rtNodal q =>
      simp only [get_face_interpolation_matrix_check, is_rt_nodal,
        recognized_family, source_n_dofs_per_face, not_true, not_false_iff,
        if_false, if_true]
      by_cases hle : n_dofs_per_face dim p ≤ n_dofs_per_face dim q <;>
        simp [hle] <;> omega
    | feNothing b =>
      simp [get_face_interpolation_matrix_check, is_rt_nodal,
        recognized_family, source_n_dofs_per_face, hpos]
    | otherFamily =>
      simp [get_face_interpolation_matrix_check, is_rt_nodal,
        recognized_family]
  · intro q hq hle
    subst hq
    simp [get_face_interpolation_matrix_check, is_rt_nodal,
      source_n_dofs_per_face, hle]

/-- C3 witness: the statement instantiated at dim = 2, this degree 1,
source a same-family element of degree 2, subface 0. -/
theorem face_interpolation_guard_iff_witness :
    (get_face_interpolation_matrix_check 2 1 (.rtNodal 2) =
        .error .interpNotImplemented ↔
      (¬ recognized_family (.rtNodal 2) ∨
        source_n_dofs_per_face 2 (.rtNodal 2) < n_dofs_per_face 2 1)) ∧
    get_subface_interpolation_matrix_check 2 1 (.rtNodal 2) 0 =
      get_face_interpolation_matrix_check 2 1 (.rtNodal 2) ∧
    (∀ q, SourceFE.rtNodal 2 = .rtNodal q →
      n_dofs_per_face 2 1 ≤ n_dofs_per_face 2 q →
      get_face_interpolation_matrix_check 2 1 (.rtNodal 2) = .ok ()) :=
  face_interpolation_guard_iff 2 1 (.rtNodal 2) 0 (Or.inl rfl)

/-- C6: between two same-family instances with constructor degrees p and q,
the line dof identity query returns exactly what the spec states: for
dim = 2, the full identity list when p = q, the single middle pair when p
and q are both even, and the empty list otherwise; for any other dim the
empty list. -/
theorem hp_line_matches_spec (dim p q : ℕ) :
    hp_line_dof_identities dim p (.rtNodal q) =
      .ok (hpLineDofIdentities_spec dim p q) := by
  simp only [hp_line_dof_identities, hpLineDofIdentities_spec, fe_degree,
    Nat.add_sub_cancel, Nat.even_iff]
  split_ifs <;> rfl

/-- C7: between two same-family instances with per-face (quad) dof counts
p and q, the quad dof identity query returns exactly what the spec states:
for dim = 3, the full identity list when p = q, the single middle pair
(integer division) when p and q are both odd, and the empty list
otherwise; for any other dim the empty list. -/
theorem hp_quad_matches_spec (dim dthis dother : ℕ) :
    hp_quad_dof_identities dim dthis (.rtNodal dother) =
      .ok (hpQuadDofIdentities_spec dim (n_dofs_per_quad dthis)
        (n_dofs_per_quad dother)) := by
  simp only [hp_quad_dof_identities, hpQuadDofIdentities_spec, Nat.odd_iff]
  have h2 : ∀ m : ℕ, m % 2 ≠ 0 ↔ m % 2 = 1 := by omega
  simp only [h2]
  split_ifs <;> rfl

/-- C8: against a same-family element the instance with the lower degree
dominates, equal degrees let either dominate, and a higher degree cedes to
the other element; against the no-dof placeholder the result is
other-dominates when the placeholder is marked dominating and
no-requirements otherwise. -/
theorem compare_for_domination_matches_spec (dim p q codim : ℕ) (b : Bool)
    (hcodim : codim ≤ dim) :
    compare_for_domination dim p (.rtNodal q) codim =
      .ok (compareForDomination_spec p q) ∧
    compare_for_domination dim p (.feNothing b) codim =
      .ok (if b then .other_element_dominates else .no_requirements) := by
  constructor
  · simp [compare_for_domination, compareForDomination_spec, fe_degree, hcodim]
    split_ifs <;> rfl
  · simp [compare_for_domination, hcodim]
    split_ifs <;> rfl

/-- C8 witness: the statement instantiated at dim = 2, degrees 1 and 2,
codim 1, dominating placeholder. -/
theorem compare_for_domination_matches_spec_witness :
    compare_for_domination 2 1 (.rtNodal 2) 1 =
      .ok (compareForDomination_spec 1 2) ∧
    compare_for_domination 2 1 (.feNothing true) 1 =
      .ok (if true then .other_element_dominates else .no_requirements) :=
  compare_for_domination_matches_spec 2 1 2 1 true (by decide)

/-- C9: for dim in 2, 3 and every constructor degree, the
hierarchic-to-lexicographic table (built as invert_permutation of the
lexicographic-to-hierarchic numbering) is the inverse permutation of that
numbering: composing the two tables in either order is the identity on
all indices below N. -/
theorem rt_renumbering_inverse_identity (dim d : ℕ)
    (hdim : dim = 2 ∨ dim = 3) (i : ℕ) (hi : i < n_polynomials dim d) :
    (invert_permutation (get_lexicographic_numbering_rt_nodal dim d)).getD
        ((get_lexicographic_numbering_rt_nodal dim d).getD i 0) 0 = i ∧
    (get_lexicographic_numbering_rt_nodal dim d).getD
        ((invert_permutation
          (get_lexicographic_numbering_rt_nodal dim d)).getD i 0) 0 = i := by
  have hbound : ∀ j, j < n_polynomials dim d →
      rt_lex_to_hier dim d j < n_polynomials dim d := by
    rcases hdim with h | h <;> subst h <;> intro j hj
    · have hN : n_polynomials 2 d = 2 * ((d + 2) * (d + 1)) := by
        rw [n_polynomials_dim2]; ring
      rw [hN] at hj ⊢
      exact rt_lex_to_hier_2d_lt d j hj
    · have hN : n_polynomials 3 d = 3 * ((d + 2) * ((d + 1) * (d + 1))) := by
        rw [n_polynomials_dim3]; ring
      rw [hN] at hj ⊢
      exact rt_lex_to_hier_3d_lt d j hj
  have hsurj : ∀ h, h < n_polynomials dim d →
      ∃ ell, ell < n_polynomials dim d ∧ rt_lex_to_hier dim d ell = h := by
    rcases hdim with h | h <;> subst h <;> intro hh hhlt
    · have hN : n_polynomials 2 d = 2 * ((d + 2) * (d + 1)) := by
        rw [n_polynomials_dim2]; ring
      rw [hN] at hhlt ⊢
      exact f2_surj d hh hhlt
    · have hN : n_polynomials 3 d = 3 * ((d + 2) * ((d + 1) * (d + 1))) := by
        rw [n_polynomials_dim3]; ring
      rw [hN] at hhlt ⊢
      exact f3_surj d hh hhlt
  exact invert_perm_spec (n_polynomials dim d) (rt_lex_to_hier dim d)
    hbound hsurj i hi

/-- C9 witness: the statement instantiated at dim = 2, d = 1, index 3. -/
theorem rt_renumbering_inverse_identity_witness :
    (invert_permutation (get_lexicographic_numbering_rt_nodal 2 1)).getD
        ((get_lexicographic_numbering_rt_nodal 2 1).getD 3 0) 0 = 3 ∧
    (get_lexicographic_numbering_rt_nodal 2 1).getD
        ((invert_permutation
          (get_lexicographic_numbering_rt_nodal 2 1)).getD 3 0) 0 = 3 :=
  rt_renumbering_inverse_identity 2 1 (Or.inl rfl) 3 (by decide)

/-- C10: the support-point-to-dof-value conversion assigns, in program
order, every face position fbase + i from the component
unit_normal_direction of its face f, then splits the remaining interior
positions into dim equal consecutive chunks, chunk c reading component c;
the written positions are exactly 0 to N - 1, each assigned exactly once
(the write list is the graph of the expected assignment on range N).  The
external table GeometryInfo::unit_normal_direction is abstracted by the
function und, so the statement holds for the real table in particular. -/
theorem convert_gspv_assignment (dim d : ℕ) (und : ℕ → ℕ) (spv : ℕ → ℕ → ℚ)
    (hdim : dim = 2 ∨ dim = 3) :
    convert_gspv_writes dim d und spv =
      (List.range (n_polynomials dim d)).map
        (fun p => (p, spv p (expected_component dim d und p))) ∧
    (convert_gspv_writes dim d und spv).map Prod.fst =
      List.range (n_polynomials dim d) := by
  have hdimpos : 0 < dim := by rcases hdim with h | h <;> omega
  have hNdpF : n_polynomials dim d = dim * (d + 2) * n_dofs_per_face dim d := by
    rcases hdim with h | h <;> subst h
    · rw [n_polynomials_dim2, n_dofs_per_face_dim2]
    · rw [n_polynomials_dim3, n_dofs_per_face_dim3]
  set dpF := n_dofs_per_face dim d with hdpF
  have hsplitN : n_polynomials dim d = 2 * dim * dpF + dim * (d * dpF) := by
    rw [hNdpF]; ring
  have histep : (n_polynomials dim d - 2 * dim * dpF) / dim = d * dpF := by
    rw [hsplitN, Nat.add_sub_cancel_left, Nat.mul_div_cancel_left _ hdimpos]
  have hmain : convert_gspv_writes dim d und spv =
      (List.range (n_polynomials dim d)).map
        (fun p => (p, spv p (expected_component dim d und p))) := by
    have hfaces :=
      flatMap_blocks (fun b p => ((p : ℕ), spv p (und b))) dpF 0 (2 * dim)
    have hchunks :=
      flatMap_blocks (fun b p => ((p : ℕ), spv p b)) (d * dpF) (2 * dim * dpF)
        dim
    simp only [zero_add, Nat.sub_zero] at hfaces
    simp only [convert_gspv_writes, ← hdpF]
    rw [histep, hfaces, hchunks]
    rw [List.range_eq_range']
    have hsplitRange : List.range' 0 (n_polynomials dim d) =
        List.range' 0 (2 * dim * dpF) ++
          List.range' (2 * dim * dpF) (dim * (d * dpF)) := by
      have hr := List.range'_append_1 0 (2 * dim * dpF) (dim * (d * dpF))
      simp only [Nat.zero_add] at hr
      rw [hsplitN, Nat.add_comm (2 * dim * dpF) (dim * (d * dpF)), ← hr]
    rw [hsplitRange, List.map_append]
    congr 1
    · apply List.map_congr_left
      intro p hp
      have hp2 : p < 2 * dim * dpF := by
        have := List.mem_range'_1.mp hp
        omega
      simp only [expected_component, ← hdpF, hp2, if_pos]
    · apply List.map_congr_left
      intro p hp
      have hp2 : 2 * dim * dpF ≤ p := (List.mem_range'_1.mp hp).1
      have hp3 : ¬ p < 2 * dim * dpF := by omega
      simp only [expected_component, ← hdpF, hp3, if_false, histep]
  refine ⟨hmain, ?_⟩
  have hfst : (Prod.fst ∘ fun p =>
      ((p : ℕ), spv p (expected_component dim d und p))) = id := rfl
  rw [hmain, List.map_map, hfst, List.map_id]

/-- C10 witness: the statement instantiated at dim = 2, d = 1, with the
real unit normal direction table f / 2 and a concrete value function. -/
theorem convert_gspv_assignment_witness :
    convert_gspv_writes 2 1 (fun f => f / 2) (fun i c => (i * 10 + c : ℕ)) =
      (List.range (n_polynomials 2 1)).map
        (fun p => (p, ((fun i c => ((i * 10 + c : ℕ) : ℚ)) p
          (expected_component 2 1 (fun f => f / 2) p)))) ∧
    (convert_gspv_writes 2 1 (fun f => f / 2)
        (fun i c => (i * 10 + c : ℕ))).map Prod.fst =
      List.range (n_polynomials 2 1) :=
  convert_gspv_assignment 2 1 (fun f => f / 2) (fun i c => (i * 10 + c : ℕ))
    (Or.inl rfl)

end RTNodal
